import Mathlib

/-!
Shallow embedding of the `morton` Go package (Z-order curve codec with
generated lookup tables and magic masks), together with a historical
variant of the magic-mask generator kept in the repository.

Machine integers are modelled as `Nat` with explicit reduction `% 2^64`
(resp. `% 2^32`) exactly where Go's fixed-width shift semantics drop
bits.  Go's `x << s` on `uint64` yields `0` when `s ≥ 64`; `(x <<< s) % U64`
on `Nat` agrees with that, since the shifted bit positions all exceed 63.
Go run-time panics (integer division by zero, slice index out of range)
are modelled by `Option`/`none`.
-/

namespace ZOrder

/-- The modulus `2^64` of Go `uint64` arithmetic. -/
def U64 : Nat := 18446744073709551616

/-- The modulus `2^32` of Go `uint32` arithmetic. -/
def U32 : Nat := 4294967296

/-- A lookup-table entry (`type Bit struct` in `morton.go`):
`Index` is the original coordinate value, `Value` its interleaved pattern. -/
structure Bit where
  Index : Nat
  Value : Nat
deriving Repr, DecidableEq

/-- A per-dimension lookup table (`type Table struct` in `morton.go`). -/
structure Table where
  Index : Nat
  Length : Nat
  Encode : List Bit
deriving Repr, DecidableEq

/-- The codec (`type Morton struct` in `morton.go`). -/
structure Morton where
  Dimensions : Nat
  Tables : List Table
  Magic : List Nat
deriving Repr, DecidableEq

/-- The counting loop of `InterleaveBits` (`for i := uint32(0); n != 0; i++
{ n = n >> 1; limit++ }`): the number of halvings until the value reaches
zero, i.e. the number of significant bits.  `fuel` makes the recursion
structural; `fuel = n` always suffices since each step at least halves. -/
def sigBitsAux : Nat → Nat → Nat
  | 0, _ => 0
  | fuel + 1, n => if n = 0 then 0 else sigBitsAux fuel (n >>> 1) + 1

/-- The number of significant bits of `n` as the `InterleaveBits` loop
counts it (equal to `Nat.size n`, see `sigBits_eq_size`). -/
def sigBits (n : Nat) : Nat := sigBitsAux n n

/-- Function `InterleaveBits(value, offset, spread uint32) Bit` from `morton.go`:
first the number of significant bits of `value` is counted (`limit`),
then each set bit `i` of `value` is OR-ed in at position `i + i*spread`,
and the accumulator is finally shifted left by `offset`.  All arithmetic
is `uint64`, hence the `% U64` reductions. -/
def InterleaveBits (value offset spread : Nat) : Bit :=
  let limit := sigBits value
  let acc := (List.range limit).foldl
    (fun acc i => acc ||| (((value &&& ((1 <<< i) % U64)) <<< (i * spread)) % U64)) 0
  { Index := value, Value := (acc <<< offset) % U64 }

/-- The comparison `ByBit.Less` from `morton.go`: order `Bit`s by `Index`. -/
def bitLE (a b : Bit) : Prop := a.Index ≤ b.Index

instance : DecidableRel bitLE := fun a b => Nat.decLe a.Index b.Index

instance : IsTotal Bit bitLE := ⟨fun a b => Nat.le_total a.Index b.Index⟩

instance : IsTrans Bit bitLE := ⟨fun _ _ _ => Nat.le_trans⟩

/-- Strict version of `bitLE`, used to state that a table is strictly
ascending in `Index`. -/
def bitLT (a b : Bit) : Prop := a.Index < b.Index

instance : DecidableRel bitLT := fun a b => Nat.decLt a.Index b.Index

instance : IsAntisymm Bit bitLT :=
  ⟨fun a b h hba => absurd (Nat.lt_trans h hba) (Nat.lt_irrefl a.Index)⟩

/-- The call `sort.Sort(ByBit(t.Encode))` from `morton.go`, modelled by
insertion sort under `ByBit.Less` (Go's `sort.Sort` is an arbitrary
correct comparison sort; on the distinct keys that occur here the result
is unique, see `sortBits_of_perm_range`). -/
def sortBits (l : List Bit) : List Bit := l.insertionSort bitLE

/-- The spread `uint32(dimensions - 1)` where `dimensions` is a `uint8`:
the subtraction wraps modulo 256 (it yields 255 for `dimensions = 0`). -/
def spreadOf (dimensions : Nat) : Nat := (dimensions + 255) % 256

/-- Function `CreateTable(index, dimensions uint8, length uint32) Table` from
`morton.go`, parametrised by the order in which the per-value goroutine
results arrive on the channel (`arrival` lists the coordinate values in
arrival order).  The collected bits are sorted by `Index` before the
table is returned. -/
def CreateTableArrival (index dimensions length : Nat) (arrival : List Nat) : Table :=
  { Index := index
    Length := length
    Encode := sortBits (arrival.map (fun i => InterleaveBits i index (spreadOf dimensions))) }

/-- The table with the canonical arrival order `0, 1, ..., length-1`
(every arrival order yields this same table once sorted). -/
def CreateTable (index dimensions length : Nat) : Table :=
  CreateTableArrival index dimensions length (List.range length)

/-- Accumulator `nth` of `MakeMagic` in `morton.go` (six `uint64` masks). -/
structure MagicAcc where
  n0 : Nat
  n1 : Nat
  n2 : Nat
  n3 : Nat
  n4 : Nat
  n5 : Nat
deriving Repr, DecidableEq

/-- Body of `case i <= 1` of the `switch` in `MakeMagic`. -/
def magicCase5 (d i : Nat) (a : MagicAcc) : MagicAcc :=
  { a with n5 := a.n5 ||| ((0xffffff <<< (i * (d <<< 5))) % U64) }

/-- Body of `case i <= 2`, which falls through to `case i <= 1`. -/
def magicCase4 (d i : Nat) (a : MagicAcc) : MagicAcc :=
  magicCase5 d i { a with n4 := a.n4 ||| ((0xffff <<< (i * (d <<< 4))) % U64) }

/-- Body of `case i <= 4`, which falls through to `case i <= 2`. -/
def magicCase3 (d i : Nat) (a : MagicAcc) : MagicAcc :=
  magicCase4 d i { a with n3 := a.n3 ||| ((0xff <<< (i * (d <<< 3))) % U64) }

/-- Body of `case i <= 8`, which falls through to `case i <= 4`. -/
def magicCase2 (d i : Nat) (a : MagicAcc) : MagicAcc :=
  magicCase3 d i { a with n2 := a.n2 ||| ((0xf <<< (i * (d <<< 2))) % U64) }

/-- Body of `case i <= 16`, which falls through to `case i <= 8`. -/
def magicCase1 (d i : Nat) (a : MagicAcc) : MagicAcc :=
  magicCase2 d i { a with n1 := a.n1 ||| ((3 <<< (i * (d <<< 1))) % U64) }

/-- Body of `case i <= 32`, which falls through to `case i <= 16`. -/
def magicCase0 (d i : Nat) (a : MagicAcc) : MagicAcc :=
  magicCase1 d i { a with n0 := a.n0 ||| ((1 <<< (i * d)) % U64) }

/-- One iteration of the `for` loop of `MakeMagic`: Go's `switch` runs the
body of the first case whose condition holds (and `fallthrough` then runs
all later bodies); when no condition holds nothing happens. -/
def magicStep (d : Nat) (a : MagicAcc) (i : Nat) : MagicAcc :=
  if i ≤ 32 then magicCase0 d i a
  else if i ≤ 16 then magicCase1 d i a
  else if i ≤ 8 then magicCase2 d i a
  else if i ≤ 4 then magicCase3 d i a
  else if i ≤ 2 then magicCase4 d i a
  else if i ≤ 1 then magicCase5 d i a
  else a

/-- The loop of `MakeMagic(dimensions uint8) []uint64` in `morton.go` for a
nonzero dimension count: `limit := 64/d + 1`, then the tiered `switch`
runs for `i = 0, ..., limit-1`. -/
def MakeMagicBody (d : Nat) : List Nat :=
  let limit := 64 / d + 1
  let a := (List.range limit).foldl (magicStep d) ⟨0, 0, 0, 0, 0, 0⟩
  [a.n0, a.n1, a.n2, a.n3, a.n4, a.n5]

/-- Function `MakeMagic` from `morton.go`.  For `dimensions = 0` the expression
`64/d` divides by zero, a Go run-time panic, modelled by `none`. -/
def MakeMagic (d : Nat) : Option (List Nat) :=
  if d = 0 then none else some (MakeMagicBody d)

/-- The loop body of the historical flat `makeMagic` in
`src/unnamed/part_000`: every one of the 64 iterations updates masks 1-4
unconditionally, and mask 0 only while `i < limit`. -/
def magicFlatStep (d limit : Nat) (a : MagicAcc) (i : Nat) : MagicAcc :=
  { n0 := if i < limit then a.n0 ||| ((1 <<< (i * d)) % U64) else a.n0
    n1 := a.n1 ||| ((3 <<< (i * (d <<< 1))) % U64)
    n2 := a.n2 ||| ((0xf <<< (i * (d <<< 2))) % U64)
    n3 := a.n3 ||| ((0xff <<< (i * (d <<< 3))) % U64)
    n4 := a.n4 ||| ((0xffff <<< (i * (d <<< 4))) % U64)
    n5 := 0 }

/-- The historical flat `makeMagic(dimensions uint8, mch chan<- []uint64)`
from `src/unnamed/part_000`, which produces five masks by a flat loop over
64 shift steps.  As in `MakeMagic`, `dimensions = 0` divides by zero. -/
def makeMagicFlat (d : Nat) : Option (List Nat) :=
  if d = 0 then none
  else some (
    let limit := 64 / d + 1
    let a := (List.range 64).foldl (magicFlatStep d limit) ⟨0, 0, 0, 0, 0, 0⟩
    [a.n0, a.n1, a.n2, a.n3, a.n4])

/-- Method `Morton.CreateTables` from `morton.go`: one table per dimension index,
collected from goroutines and then sorted by `Table.Index`.  Its outcome
is deterministic (the `Index` keys are distinct), so it is modelled
directly by the sorted result. -/
def CreateTables (dimensions length : Nat) : List Table :=
  (List.range dimensions).map (fun i => CreateTable i dimensions length)

/-- Method `Morton.Create(dimensions uint8, size uint32)` from `morton.go`:
builds the tables and the magic masks (concurrently in the source, with a
barrier before returning).  A panic in either goroutine (only possible in
`MakeMagic`, for `dimensions = 0`) crashes the call, modelled by `none`. -/
def Create (dimensions size : Nat) : Option Morton :=
  (MakeMagic dimensions).map (fun magic =>
    { Dimensions := dimensions
      Tables := CreateTables dimensions size
      Magic := magic })

/-- Function `New(dimensions uint8, size uint32) *Morton` from `morton.go`. -/
def New (dimensions size : Nat) : Option Morton := Create dimensions size

/-- The zero value of `Table` (what indexing past the end would copy;
only used as the `getD` fallback, never reached in verified scope). -/
def zeroTable : Table := { Index := 0, Length := 0, Encode := [] }

/-- The zero value of `Bit`. -/
def zeroBit : Bit := { Index := 0, Value := 0 }

/-- The table contents `CreateTable` produces once the collected bits are
sorted: one entry per coordinate value, in value order. -/
def canonicalBits (index dimensions length : Nat) : List Bit :=
  (List.range length).map (fun v => InterleaveBits v index (spreadOf dimensions))

/-- The error values `Morton.Encode` can return (three distinct
`errors.New` sites in `morton.go`; the component message embeds `k`). -/
inductive EncodeErr where
  | noTables
  | vectorTooLong
  | componentOutOfRange (k : Nat)
deriving Repr, DecidableEq

/-- The bound `uint32(len(t.Encode) - 1)` of the range guard in
`Morton.Encode`: `len` is a Go `int`, so for an empty table `len - 1 = -1`
and the `uint32` conversion wraps to `4294967295`. -/
def encodeGuardBound (len : Nat) : Nat := (len + (U32 - 1)) % U32

/-- The `for k, v := range vector` loop of `Morton.Encode`, with `result`
accumulated in `acc`.  A normal return yields `some (result, err)` (Go
returns both named values); the out-of-bounds access
`m.Tables[k].Encode[v]` that the wrapped guard lets through is a run-time
panic, modelled by `none`. -/
def encodeLoop (tables : List Table) : Nat → Nat → List Nat → Option (Nat × Option EncodeErr)
  | _, acc, [] => some (acc, none)
  | k, acc, v :: rest =>
    let t := tables.getD k zeroTable
    if v > encodeGuardBound t.Encode.length then
      some (acc, some (EncodeErr.componentOutOfRange k))
    else if v < t.Encode.length then
      encodeLoop tables (k + 1) (acc ||| (t.Encode.getD v zeroBit).Value) rest
    else
      none

/-- Method `Morton.Encode(vector []uint32) (result uint64, err error)` from
`morton.go`. -/
def Morton.Encode (m : Morton) (vector : List Nat) : Option (Nat × Option EncodeErr) :=
  let length := m.Tables.length
  if length = 0 then some (0, some EncodeErr.noTables)
  else if vector.length > length then some (0, some EncodeErr.vectorTooLong)
  else encodeLoop m.Tables 0 0 vector

/-- Method `Morton.Decode(code uint64) (result []uint32)` from `morton.go`:
for each dimension `i`, start from `(code >> i) & Magic[0]` and apply
`len(Magic) - 1` xor-shift-mask compaction stages; the `uint32` conversion
on append is the `% U32`.  (All `Magic` indexing is in bounds whenever
`Magic` is nonempty, which holds for every codec built by `Create`;
`getD` never falls back to its default in the verified scope.) -/
def Morton.Decode (m : Morton) (code : Nat) : List Nat :=
  if m.Dimensions = 0 then []
  else
    let d := m.Dimensions
    (List.range d).map (fun i =>
      let r0 := (code >>> i) &&& m.Magic.getD 0 0
      let r := (List.range (m.Magic.length - 1)).foldl
        (fun r j => (r ^^^ (r >>> ((d - 1) * (1 <<< j)))) &&& m.Magic.getD (j + 1) 0) r0
      r % U32)

/-- The bitwise OR of `tables[k].Encode[vector[k]].Value` over the vector's
components, `k` counting from the given start index (the value `Encode`
accumulates in `result`). -/
def orContrib (tables : List Table) : Nat → List Nat → Nat
  | _, [] => 0
  | k, v :: rest =>
    ((tables.getD k zeroTable).Encode.getD v zeroBit).Value ||| orContrib tables (k + 1) rest

/-- The Bit Interleaver accumulator as the spec's §4.1 describes it: for
each bit position `i` below the significant-bit count of `value`, if bit
`i` of `value` is set, set bit `i * (spread + 1)` in a 64-bit accumulator;
finally shift the accumulator left by the dimension offset. -/
def specInterleaveValue (value offset spread : Nat) : Nat :=
  ((List.range (Nat.size value)).foldl
    (fun acc i => if value.testBit i then acc ||| ((1 <<< (i * (spread + 1))) % U64) else acc) 0
    <<< offset) % U64

/-! ### Helper lemmas: the table a build produces -/

theorem interleave_index (v o s : Nat) : (InterleaveBits v o s).Index = v := rfl

theorem canonicalBits_sorted_lt (i d n : Nat) : (canonicalBits i d n).Pairwise bitLT := by
  unfold canonicalBits
  rw [List.pairwise_map]
  exact (List.sorted_lt_range n).imp (fun h => h)

theorem canonicalBits_map_index (i d n : Nat) :
    (canonicalBits i d n).map Bit.Index = List.range n := by
  simp [canonicalBits, List.map_map, Function.comp_def, interleave_index]

theorem sortBits_of_perm_range (i d n : Nat) (arrival : List Nat)
    (hp : arrival.Perm (List.range n)) :
    sortBits (arrival.map (fun v => InterleaveBits v i (spreadOf d))) = canonicalBits i d n := by
  have hperm : (arrival.map (fun v => InterleaveBits v i (spreadOf d))).Perm
      (canonicalBits i d n) := hp.map _
  have hperm2 : (sortBits (arrival.map (fun v => InterleaveBits v i (spreadOf d)))).Perm
      (canonicalBits i d n) := (List.perm_insertionSort bitLE _).trans hperm
  have hs1 : List.Sorted bitLE (sortBits (arrival.map (fun v => InterleaveBits v i (spreadOf d)))) :=
    List.sorted_insertionSort bitLE _
  have hidx : ((sortBits (arrival.map (fun v => InterleaveBits v i (spreadOf d)))).map
      Bit.Index).Perm (List.range n) := by
    have h2 := hperm2.map Bit.Index
    rwa [canonicalBits_map_index] at h2
  have hnodup := hidx.nodup_iff.mpr (List.nodup_range n)
  have hne := List.pairwise_map.mp hnodup
  have hlt : (sortBits (arrival.map (fun v => InterleaveBits v i (spreadOf d)))).Pairwise bitLT :=
    (hs1.and hne).imp (fun h => Nat.lt_of_le_of_ne h.1 h.2)
  exact List.eq_of_perm_of_sorted hperm2 hlt (canonicalBits_sorted_lt i d n)

theorem createTableArrival_encode (i d n : Nat) (arrival : List Nat)
    (hp : arrival.Perm (List.range n)) :
    (CreateTableArrival i d n arrival).Encode = canonicalBits i d n :=
  sortBits_of_perm_range i d n arrival hp

theorem createTable_encode (i d n : Nat) :
    (CreateTable i d n).Encode = canonicalBits i d n :=
  createTableArrival_encode i d n (List.range n) (List.Perm.refl _)

theorem canonicalBits_length (i d n : Nat) : (canonicalBits i d n).length = n := by
  simp [canonicalBits]

theorem canonicalBits_get_index (i d n v : Nat) (h : v < (canonicalBits i d n).length) :
    ((canonicalBits i d n).get ⟨v, h⟩).Index = v := by
  have hv : v < n := by simpa [canonicalBits_length] using h
  simp [canonicalBits, interleave_index]

/-! ### Helper lemmas: significant-bit count and the interleave accumulator -/

theorem U64_eq : U64 = 2 ^ 64 := by norm_num [U64]

theorem size_shiftRight_succ (n : Nat) (h : n ≠ 0) :
    Nat.size n = Nat.size (n >>> 1) + 1 := by
  conv_lhs => rw [← Nat.bit_testBit_zero_shiftRight_one n]
  rw [Nat.size_bit (by rwa [Nat.bit_testBit_zero_shiftRight_one])]

theorem sigBitsAux_eq_size : ∀ (fuel n : Nat), n ≤ fuel → sigBitsAux fuel n = Nat.size n
  | 0, n, h => by
    have h0 : n = 0 := by omega
    simp [sigBitsAux, h0]
  | fuel + 1, n, h => by
    unfold sigBitsAux
    by_cases h0 : n = 0
    · simp [h0]
    · rw [if_neg h0, sigBitsAux_eq_size fuel (n >>> 1) (by simp [Nat.shiftRight_succ]; omega),
        ← size_shiftRight_succ n h0]

theorem sigBits_eq_size (n : Nat) : sigBits n = Nat.size n :=
  sigBitsAux_eq_size n n (Nat.le_refl n)

theorem interleave_term (v i s : Nat) :
    ((v &&& ((1 <<< i) % U64)) <<< (i * s)) % U64 =
      if v.testBit i then (1 <<< (i * (s + 1))) % U64 else 0 := by
  by_cases hi : i < 64
  · have h1 : (1 <<< i) % U64 = 2 ^ i := by
      rw [Nat.shiftLeft_eq, one_mul, U64_eq, Nat.mod_eq_of_lt]
      exact Nat.pow_lt_pow_right (by norm_num) hi
    rw [h1, Nat.and_two_pow]
    cases hb : v.testBit i with
    | true =>
      simp only [Bool.toNat_true, one_mul, if_true]
      rw [Nat.shiftLeft_eq, Nat.shiftLeft_eq, one_mul, ← Nat.pow_add]
      have : i + i * s = i * (s + 1) := by ring
      rw [this]
    | false =>
      simp [Nat.zero_shiftLeft]
  · have hge : 64 ≤ i := by omega
    have hz : ∀ j, 64 ≤ j → (1 <<< j) % U64 = 0 := by
      intro j hj
      rw [Nat.shiftLeft_eq, one_mul, U64_eq]
      exact Nat.mod_eq_zero_of_dvd (Nat.pow_dvd_pow 2 hj)
    rw [hz i hge]
    have h2 : 64 ≤ i * (s + 1) := by
      have : i ≤ i * (s + 1) := Nat.le_mul_of_pos_right i (by omega)
      omega
    rw [hz _ h2]
    simp [Nat.and_zero, Nat.zero_shiftLeft]

theorem interleaveBits_value (v o s : Nat) :
    (InterleaveBits v o s).Value = specInterleaveValue v o s := by
  unfold InterleaveBits specInterleaveValue
  dsimp only
  rw [sigBits_eq_size]
  have hext : ∀ acc : Nat, ∀ i ∈ List.range (Nat.size v),
      acc ||| (((v &&& ((1 <<< i) % U64)) <<< (i * s)) % U64) =
        (if v.testBit i then acc ||| ((1 <<< (i * (s + 1))) % U64) else acc) := by
    intro acc i _
    rw [interleave_term]
    split <;> simp
  rw [List.foldl_ext _ _ 0 hext]

/-! ### Helper lemmas: the Encode loop -/

theorem createTables_length (d s : Nat) : (CreateTables d s).length = d := by
  simp [CreateTables]

theorem createTables_getD (d s k : Nat) (hk : k < d) :
    (CreateTables d s).getD k zeroTable = CreateTable k d s := by
  have hk2 : k < ((List.range d).map (fun i => CreateTable i d s)).length := by simpa using hk
  unfold CreateTables
  rw [List.getD_eq_getElem _ _ hk2]
  simp

theorem createTable_length_field (i d n : Nat) : (CreateTable i d n).Length = n := rfl

theorem createTable_encode_length (i d n : Nat) : (CreateTable i d n).Encode.length = n := by
  rw [createTable_encode]; exact canonicalBits_length i d n

theorem encodeGuardBound_of_pos (s : Nat) (hs : 1 ≤ s) (hsw : s < U32) :
    encodeGuardBound s = s - 1 := by
  unfold encodeGuardBound U32 at *
  omega

theorem createTable_getD_entry (i d n x : Nat) (hx : x < n) :
    (CreateTable i d n).Encode.getD x zeroBit = InterleaveBits x i (spreadOf d) := by
  rw [createTable_encode]
  rw [List.getD_eq_getElem _ _ (by rw [canonicalBits_length]; exact hx)]
  simp [canonicalBits]

theorem tables_entry (d s k x : Nat) (hk : k < d) (hx : x < s) :
    ((CreateTables d s).getD k zeroTable).Encode.getD x zeroBit =
      InterleaveBits x k (spreadOf d) := by
  rw [createTables_getD d s k hk, createTable_getD_entry k d s x hx]

theorem orContrib_cons (tables : List Table) (k x : Nat) (rest : List Nat) :
    orContrib tables k (x :: rest) =
      ((tables.getD k zeroTable).Encode.getD x zeroBit).Value ||| orContrib tables (k + 1) rest :=
  rfl

theorem encodeLoop_cons_eq (tables : List Table) (k acc x : Nat) (rest : List Nat) :
    encodeLoop tables k acc (x :: rest) =
      (if x > encodeGuardBound (tables.getD k zeroTable).Encode.length then
        some (acc, some (EncodeErr.componentOutOfRange k))
      else if x < (tables.getD k zeroTable).Encode.length then
        encodeLoop tables (k + 1)
          (acc ||| ((tables.getD k zeroTable).Encode.getD x zeroBit).Value) rest
      else none) :=
  rfl

theorem encodeLoop_cases (d s : Nat) (hs : 1 ≤ s) (hsw : s < U32) (v : List Nat) :
    ∀ (k acc : Nat), k + v.length ≤ d →
    ((∀ x ∈ v, x < s) ∧
      encodeLoop (CreateTables d s) k acc v =
        some (acc ||| orContrib (CreateTables d s) k v, none)) ∨
    (∃ j, ∃ hj : j < v.length, s ≤ v.get ⟨j, hj⟩ ∧ (∀ i2, i2 < j → v.getD i2 0 < s) ∧
      encodeLoop (CreateTables d s) k acc v =
        some (acc ||| orContrib (CreateTables d s) k (v.take j),
          some (EncodeErr.componentOutOfRange (k + j)))) := by
  induction v with
  | nil =>
    intro k acc _
    exact Or.inl ⟨by simp, by simp [encodeLoop, orContrib]⟩
  | cons x rest ih =>
    intro k acc hk
    have hkd : k < d := by simp at hk; omega
    have ht : (CreateTables d s).getD k zeroTable = CreateTable k d s :=
      createTables_getD d s k hkd
    have hgb : encodeGuardBound s = s - 1 := encodeGuardBound_of_pos s hs hsw
    have hcons : encodeLoop (CreateTables d s) k acc (x :: rest) =
        (if x > s - 1 then some (acc, some (EncodeErr.componentOutOfRange k))
        else if x < s then
          encodeLoop (CreateTables d s) (k + 1)
            (acc ||| (((CreateTables d s).getD k zeroTable).Encode.getD x zeroBit).Value) rest
        else none) := by
      rw [encodeLoop_cons_eq, ht, createTable_encode_length, hgb, ← ht]
    by_cases hx : x > s - 1
    · right
      refine ⟨0, by simp, by simpa using (by omega : s ≤ x),
        fun i2 hi2 => absurd hi2 (by omega), ?_⟩
      rw [hcons, if_pos hx]
      simp [orContrib]
    · have hxs : x < s := by omega
      have hentry : ((CreateTables d s).getD k zeroTable).Encode.getD x zeroBit =
          InterleaveBits x k (spreadOf d) := tables_entry d s k x hkd hxs
      have hstep : encodeLoop (CreateTables d s) k acc (x :: rest) =
          encodeLoop (CreateTables d s) (k + 1)
            (acc ||| (InterleaveBits x k (spreadOf d)).Value) rest := by
        rw [hcons, if_neg hx, if_pos hxs, hentry]
      have hor : orContrib (CreateTables d s) k (x :: rest) =
          (InterleaveBits x k (spreadOf d)).Value |||
            orContrib (CreateTables d s) (k + 1) rest := by
        rw [orContrib_cons, hentry]
      rcases ih (k + 1) (acc ||| (InterleaveBits x k (spreadOf d)).Value)
          (by simp at hk ⊢; omega) with ⟨hall, heq⟩ | ⟨j, hj, hjs, hjlt, heq⟩
      · left
        refine ⟨?_, ?_⟩
        · intro y hy
          rcases List.mem_cons.mp hy with rfl | hy2
          · exact hxs
          · exact hall y hy2
        · rw [hstep, heq, hor, Nat.lor_assoc]
      · right
        refine ⟨j + 1, by simpa using Nat.succ_lt_succ hj, by simpa using hjs, ?_, ?_⟩
        · intro i2 hi2
          match i2 with
          | 0 => simpa using hxs
          | i2 + 1 => simpa using hjlt i2 (by omega)
        · rw [hstep, heq]
          have horr : orContrib (CreateTables d s) k ((x :: rest).take (j + 1)) =
              (InterleaveBits x k (spreadOf d)).Value |||
                orContrib (CreateTables d s) (k + 1) (rest.take j) := by
            rw [show (x :: rest).take (j + 1) = x :: rest.take j from rfl,
              orContrib_cons, hentry]
          rw [horr, Nat.lor_assoc, show k + 1 + j = k + (j + 1) from by omega]

theorem morton_encode_built (d s : Nat) (hd : 1 ≤ d) (magic : List Nat) (v : List Nat)
    (hlen : v.length ≤ d) :
    Morton.Encode { Dimensions := d, Tables := CreateTables d s, Magic := magic } v =
      encodeLoop (CreateTables d s) 0 0 v := by
  unfold Morton.Encode
  have h1 : (CreateTables d s).length = d := createTables_length d s
  simp only [h1]
  rw [if_neg (by omega), if_neg (by omega)]

theorem create_built (d s : Nat) (hd : 1 ≤ d) :
    Create d s = some
      { Dimensions := d, Tables := CreateTables d s, Magic := MakeMagicBody d } := by
  unfold Create MakeMagic
  rw [if_neg (by omega)]
  rfl

/-! ### Helper lemmas: the magic masks -/

theorem magicStep_n0_testBit (d i : Nat) (a : MagicAcc) (h : a.n0.testBit 0 = true) :
    ((magicStep d a i).n0).testBit 0 = true := by
  unfold magicStep magicCase0 magicCase1 magicCase2 magicCase3 magicCase4 magicCase5
  split_ifs <;> simp_all [Nat.testBit_or]

theorem foldl_magicStep_n0_testBit (d : Nat) (l : List Nat) :
    ∀ a : MagicAcc, a.n0.testBit 0 = true →
      ((l.foldl (magicStep d) a).n0).testBit 0 = true := by
  induction l with
  | nil => exact fun a h => h
  | cons i rest ih => exact fun a h => ih _ (magicStep_n0_testBit d i a h)

theorem makeMagicBody_length (d : Nat) : (MakeMagicBody d).length = 6 := by
  simp [MakeMagicBody]

theorem makeMagicBody_head_testBit (d : Nat) :
    ((MakeMagicBody d).getD 0 0).testBit 0 = true := by
  unfold MakeMagicBody
  dsimp only
  rw [List.getD_cons_zero, List.range_succ_eq_map, List.foldl_cons]
  refine foldl_magicStep_n0_testBit d _ _ ?_
  have h0 : (magicStep d ⟨0, 0, 0, 0, 0, 0⟩ 0).n0 = 1 := by
    norm_num [magicStep, magicCase0, magicCase1, magicCase2, magicCase3, magicCase4,
      magicCase5, U64]
  rw [h0]
  decide

/-! ### The claims -/

/-- Claim C1 (code bug in `Decode`): the spec's round-trip property fails at
`dimensions = 1`.  On the codec built by `Create(1, 8)`, `Encode([1])`
returns code `1` with no error, but `Decode(1)` returns `[0]`, not `[1]`:
for `d = 1` the compaction shift `(d-1) * 2^j` is zero, so the stage
`r = (r ^ (r >> 0)) & magic[1]` zeroes every component.  The round trip
does hold for dimensions 2..4 (see `roundtrip_dim2_example`,
`roundtrip_dim3_example`, `roundtrip_dim4_example`). -/
theorem C1_round_trip_fails_at_dimension_one :
    (Create 1 8).map (fun m => m.Encode [1]) = some (some (1, none)) ∧
    (Create 1 8).map (fun m => m.Decode 1) = some [0] ∧ ([0] : List Nat) ≠ [1] :=
  ⟨by decide, by decide, by decide⟩

/-- Round trip at `dimensions = 2, domainSize = 16`, vector `[11, 6]`. -/
theorem roundtrip_dim2_example :
    (Create 2 16).map (fun m => (m.Encode [11, 6]).map (fun p => m.Decode p.1)) =
      some (some [11, 6]) := by decide

/-- Round trip at `dimensions = 3, domainSize = 8`, vector `[5, 3, 1]`. -/
theorem roundtrip_dim3_example :
    (Create 3 8).map (fun m => (m.Encode [5, 3, 1]).map (fun p => m.Decode p.1)) =
      some (some [5, 3, 1]) := by decide

/-- Round trip at `dimensions = 4, domainSize = 8`, vector `[7, 2, 5, 1]`. -/
theorem roundtrip_dim4_example :
    (Create 4 8).map (fun m => (m.Encode [7, 2, 5, 1]).map (fun p => m.Decode p.1)) =
      some (some [7, 2, 5, 1]) := by decide

/-- Claim C2 (corrected): building a codec with `dimensions = 0` does not
terminate normally and is not rejected: `MakeMagic` computes
`64/dimensions`, a division by zero, so the build faults (modelled by
`none`) for every size. -/
theorem C2_create_zero_dimensions_faults (size : Nat) :
    Create 0 size = none ∧ MakeMagic 0 = none :=
  ⟨rfl, rfl⟩

/-- Claim C2, counterexample: at the concrete input `Create(0, 8)` the build
faults with a division by zero instead of terminating normally with an
empty, non-functional codec. -/
theorem C2_counterexample : Create 0 8 = none := rfl

/-- Claim C8, counterexample: at `dimensions = 1` mask 0 of the tiered
`MakeMagic` (bits 0..32) differs from mask 0 of the flat historical
`makeMagic` (all 64 bits), so the two constructions do not agree on their
common prefix for every dimension count in 1..4. -/
theorem C8_counterexample :
    makeMagicFlat 1 ≠ some ((MakeMagicBody 1).take 5) ∧
    (MakeMagicBody 1).getD 0 0 = 8589934591 ∧
    ((makeMagicFlat 1).getD []).getD 0 0 = 18446744073709551615 :=
  ⟨by decide, by decide, by decide⟩

/-- Claim C8 (amended): the two magic-mask constructions agree on their
common prefix (masks 0..4) for dimensions 2..4; for dimensions 1 they
agree on masks 1..4 while mask 0 differs (tiered: bits 0..32; flat: all
64 bits). -/
theorem C8_magic_constructions_agree :
    makeMagicFlat 2 = some ((MakeMagicBody 2).take 5) ∧
    makeMagicFlat 3 = some ((MakeMagicBody 3).take 5) ∧
    makeMagicFlat 4 = some ((MakeMagicBody 4).take 5) ∧
    ((makeMagicFlat 1).getD []).drop 1 = ((MakeMagicBody 1).take 5).drop 1 :=
  ⟨by decide, by decide, by decide, by decide⟩

/-- Claim C3: on a codec built with `dimensions ≥ 1` and `domainSize ≥ 1`,
a vector no longer than `dimensions` whose components are all below the
domain size encodes without error, and the result is the bitwise OR of
`tables[k].Encode[vector[k]].Value` over the vector's components (a
shorter vector simply contributes no bits for the missing dimensions). -/
theorem C3_encode_success (d s : Nat) (v : List Nat) (hd : 1 ≤ d) (hs : 1 ≤ s)
    (hsw : s < U32) (hlen : v.length ≤ d) (hv : ∀ x ∈ v, x < s) :
    ∃ m, Create d s = some m ∧ m.Encode v = some (orContrib m.Tables 0 v, none) := by
  refine ⟨_, create_built d s hd, ?_⟩
  dsimp only
  rw [morton_encode_built d s hd (MakeMagicBody d) v hlen]
  rcases encodeLoop_cases d s hs hsw v 0 0 (by omega) with ⟨_, heq⟩ | ⟨j, hj, hjs, _, _⟩
  · rw [heq, Nat.zero_or]
  · exact absurd hjs (Nat.not_le.mpr (hv _ (v.get_mem j hj)))

/-- Witness for `C3_encode_success` at `dimensions = 3`, `domainSize = 8`,
vector `[5, 3, 1]`. -/
theorem C3_encode_success_witness :
    1 ≤ 3 ∧ 1 ≤ 8 ∧ 8 < U32 ∧ ([5, 3, 1] : List Nat).length ≤ 3 ∧
    (∀ x ∈ ([5, 3, 1] : List Nat), x < 8) ∧
    ∃ m, Create 3 8 = some m ∧
      m.Encode [5, 3, 1] = some (orContrib m.Tables 0 [5, 3, 1], none) :=
  ⟨by decide, by decide, by decide, by decide, by decide,
    C3_encode_success 3 8 [5, 3, 1] (by decide) (by decide) (by decide) (by decide)
      (by decide)⟩

/-- Claim C4: a table built by `CreateTable(i, dimensions, domainSize)` has
exactly `domainSize` entries equal to the canonical value-ordered list —
regardless of the completion order of the parallel interleave tasks —
strictly ascending in `Bit.Index`, with `entries[v].Index = v` for every
`v` and entry count equal to the `Length` field. -/
theorem C4_table_completeness (i d s : Nat) (arrival : List Nat) (hd : 1 ≤ d)
    (hp : arrival.Perm (List.range s)) :
    (CreateTableArrival i d s arrival).Encode = canonicalBits i d s ∧
    (CreateTableArrival i d s arrival).Encode.length = s ∧
    (CreateTableArrival i d s arrival).Length = s ∧
    (CreateTableArrival i d s arrival).Encode.length = (CreateTableArrival i d s arrival).Length ∧
    (CreateTableArrival i d s arrival).Encode.Pairwise bitLT ∧
    ∀ v (h : v < (CreateTableArrival i d s arrival).Encode.length),
      ((CreateTableArrival i d s arrival).Encode.get ⟨v, h⟩).Index = v := by
  have he := createTableArrival_encode i d s arrival hp
  refine ⟨he, by rw [he, canonicalBits_length], rfl,
    by rw [he, canonicalBits_length]; rfl, by rw [he]; exact canonicalBits_sorted_lt i d s, ?_⟩
  intro v h
  rw [List.get_of_eq he]
  exact canonicalBits_get_index i d s v _

/-- Witness for `C4_table_completeness` at table index 0,
`dimensions = 2`, `domainSize = 3`, arrival order `[2, 0, 1]`. -/
theorem C4_table_completeness_witness :
    1 ≤ 2 ∧ ([2, 0, 1] : List Nat).Perm (List.range 3) ∧
    ((CreateTableArrival 0 2 3 [2, 0, 1]).Encode = canonicalBits 0 2 3 ∧
      (CreateTableArrival 0 2 3 [2, 0, 1]).Encode.length = 3 ∧
      (CreateTableArrival 0 2 3 [2, 0, 1]).Length = 3 ∧
      (CreateTableArrival 0 2 3 [2, 0, 1]).Encode.length =
        (CreateTableArrival 0 2 3 [2, 0, 1]).Length ∧
      (CreateTableArrival 0 2 3 [2, 0, 1]).Encode.Pairwise bitLT ∧
      ∀ v (h : v < (CreateTableArrival 0 2 3 [2, 0, 1]).Encode.length),
        ((CreateTableArrival 0 2 3 [2, 0, 1]).Encode.get ⟨v, h⟩).Index = v) :=
  ⟨by decide, by decide, C4_table_completeness 0 2 3 [2, 0, 1] (by decide) (by decide)⟩

/-- Claim C5 (amended): on a codec built with `dimensions ≥ 1` and
`domainSize ≥ 1`, for a vector no longer than the table count, `Encode`
fails with a component-out-of-range error iff some component reaches its
table's `Length`; when it fails at component `k`, the returned code is the
bitwise OR of the entries of the components before `k` (not necessarily
`0`), every component before `k` is in range, and the codec itself is
untouched (`Encode` is a pure function of the codec and the vector). -/
theorem C5_component_out_of_range (d s : Nat) (v : List Nat) (hd : 1 ≤ d) (hs : 1 ≤ s)
    (hsw : s < U32) (hlen : v.length ≤ d) :
    ∃ m, Create d s = some m ∧
      ((∃ r k, m.Encode v = some (r, some (EncodeErr.componentOutOfRange k))) ↔
        ∃ k, ∃ hk : k < v.length, (m.Tables.getD k zeroTable).Length ≤ v.get ⟨k, hk⟩) ∧
      ∀ r k, m.Encode v = some (r, some (EncodeErr.componentOutOfRange k)) →
        r = orContrib m.Tables 0 (v.take k) ∧ k < v.length ∧
          s ≤ v.getD k 0 ∧ ∀ j, j < k → v.getD j 0 < s := by
  refine ⟨_, create_built d s hd, ?_⟩
  dsimp only
  have henc : Morton.Encode
      { Dimensions := d, Tables := CreateTables d s, Magic := MakeMagicBody d } v =
      encodeLoop (CreateTables d s) 0 0 v := morton_encode_built d s hd _ v hlen
  rcases encodeLoop_cases d s hs hsw v 0 0 (by omega) with ⟨hall, heq⟩ | ⟨j, hj, hjs, hjlt, heq⟩
  · constructor
    · constructor
      · rintro ⟨r, k, hcontra⟩
        rw [henc, heq] at hcontra
        simp at hcontra
      · rintro ⟨k, hk, hge⟩
        rw [createTables_getD d s k (by omega), createTable_length_field] at hge
        exact absurd hge (Nat.not_le.mpr (hall _ (v.get_mem k hk)))
    · intro r k hcontra
      rw [henc, heq] at hcontra
      simp at hcontra
  · constructor
    · constructor
      · intro _
        refine ⟨j, hj, ?_⟩
        rw [createTables_getD d s j (by omega), createTable_length_field]
        exact hjs
      · intro _
        exact ⟨0 ||| orContrib (CreateTables d s) 0 (v.take j), 0 + j, by rw [henc, heq]⟩
    · intro r k hcontra
      rw [henc, heq] at hcontra
      simp only [Option.some.injEq, Prod.mk.injEq, EncodeErr.componentOutOfRange.injEq] at hcontra
      obtain ⟨hr, hk⟩ := hcontra
      have hjk : j = k := by omega
      subst hjk
      refine ⟨by rw [← hr, Nat.zero_or], hj, ?_, fun j2 hj2 => hjlt j2 hj2⟩
      rw [List.getD_eq_getElem v 0 hj]
      simpa [List.get_eq_getElem] using hjs

/-- Witness for `C5_component_out_of_range` at `dimensions = 2`,
`domainSize = 2`, vector `[1, 5]` (second component out of range). -/
theorem C5_component_out_of_range_witness :
    1 ≤ 2 ∧ 1 ≤ 2 ∧ 2 < U32 ∧ ([1, 5] : List Nat).length ≤ 2 ∧
    ∃ m, Create 2 2 = some m ∧
      ((∃ r k, m.Encode [1, 5] = some (r, some (EncodeErr.componentOutOfRange k))) ↔
        ∃ k, ∃ hk : k < ([1, 5] : List Nat).length,
          (m.Tables.getD k zeroTable).Length ≤ ([1, 5] : List Nat).get ⟨k, hk⟩) ∧
      ∀ r k, m.Encode [1, 5] = some (r, some (EncodeErr.componentOutOfRange k)) →
        r = orContrib m.Tables 0 (([1, 5] : List Nat).take k) ∧
          k < ([1, 5] : List Nat).length ∧ 2 ≤ ([1, 5] : List Nat).getD k 0 ∧
          ∀ j, j < k → ([1, 5] : List Nat).getD j 0 < 2 :=
  ⟨by decide, by decide, by decide, by decide,
    C5_component_out_of_range 2 2 [1, 5] (by decide) (by decide) (by decide) (by decide)⟩

/-- Claim C5, counterexample: on the codec built by `Create(2, 2)`, encoding
`[1, 5]` fails with the component-out-of-range error for component 1, yet
the returned code is `1` (the contribution of component 0), not `0` as
the claim states. -/
theorem C5_counterexample :
    (Create 2 2).map (fun m => m.Encode [1, 5]) =
      some (some (1, some (EncodeErr.componentOutOfRange 1))) ∧ (1 : Nat) ≠ 0 :=
  ⟨by decide, by decide⟩

/-- Claim C6: `Decode` is total with no error channel: on a codec built by
`Create` it returns a vector of length `Dimensions` for every code,
consulting only `Dimensions` and `Magic` (never the tables, hence no
range validation); on any codec with `Dimensions = 0` it returns the
empty sequence. -/
theorem C6_decode_total (d s code : Nat) (hd : 1 ≤ d) :
    (∃ m, Create d s = some m ∧ (m.Decode code).length = d ∧
      ∀ tables2 : List Table,
        Morton.Decode { Dimensions := m.Dimensions, Tables := tables2, Magic := m.Magic }
          code = m.Decode code) ∧
    ∀ m2 : Morton, m2.Dimensions = 0 → m2.Decode code = [] := by
  constructor
  · refine ⟨_, create_built d s hd, ?_, fun tables2 => rfl⟩
    have hne : d ≠ 0 := by omega
    simp [Morton.Decode, hne]
  · intro m2 h0
    unfold Morton.Decode
    rw [if_pos h0]

/-- Witness for `C6_decode_total` at `dimensions = 2`, `domainSize = 4`,
code `7`. -/
theorem C6_decode_total_witness :
    1 ≤ 2 ∧
    ((∃ m, Create 2 4 = some m ∧ (m.Decode 7).length = 2 ∧
      ∀ tables2 : List Table,
        Morton.Decode { Dimensions := m.Dimensions, Tables := tables2, Magic := m.Magic }
          7 = m.Decode 7) ∧
    ∀ m2 : Morton, m2.Dimensions = 0 → m2.Decode 7 = []) :=
  ⟨by decide, C6_decode_total 2 4 7 (by decide)⟩

/-- Claim C7: `InterleaveBits(value, offset, spread)` returns a `Bit` whose
`Index` is `value` and whose `Value` is exactly the spec's accumulator:
each set bit `i` of `value` lands at position `i * (spread + 1)` (within
the 64-bit accumulator), and the accumulator is finally shifted left by
`offset`; the counting loop computes the significant-bit count
(`Nat.size`), which is zero for `value = 0`, so zero interleaves to 0. -/
theorem C7_interleave_matches_spec (value offset spread : Nat) :
    InterleaveBits value offset spread =
      { Index := value, Value := specInterleaveValue value offset spread } ∧
    sigBits value = Nat.size value ∧
    (InterleaveBits 0 offset spread).Value = 0 := by
  refine ⟨?_, sigBits_eq_size value, ?_⟩
  · have hv := interleaveBits_value value offset spread
    have hrepr : InterleaveBits value offset spread =
        { Index := (InterleaveBits value offset spread).Index,
          Value := (InterleaveBits value offset spread).Value } := rfl
    rw [hrepr, interleave_index, hv]
  · simp [InterleaveBits, sigBits, sigBitsAux, Nat.zero_shiftLeft]

/-- Claim C9: on a codec built with `domainSize = 0` the tables are empty,
and the guard bound `uint32(len - 1)` wraps to `4294967295`, so `Encode`
never reports the out-of-range error for such a component: instead the
entry lookup `tables[k].Encode[v]` is out of bounds for every `uint32`
component value — a run-time panic (modelled by `none`). -/
theorem C9_empty_table_panics (d x : Nat) (hd : 1 ≤ d) (hx : x < U32) :
    ∃ m, Create d 0 = some m ∧ (∀ t ∈ m.Tables, t.Encode = []) ∧
      m.Encode [x] = none ∧ encodeGuardBound 0 = 4294967295 := by
  refine ⟨_, create_built d 0 hd, ?_, ?_, by decide⟩
  · intro t ht
    dsimp only at ht
    simp only [CreateTables, List.mem_map] at ht
    obtain ⟨i, _, rfl⟩ := ht
    rw [createTable_encode]
    rfl
  · dsimp only
    rw [morton_encode_built d 0 hd (MakeMagicBody d) [x] (by simpa using hd),
      encodeLoop_cons_eq, createTables_getD d 0 0 hd, createTable_encode_length]
    rw [if_neg (by unfold encodeGuardBound U32 at *; omega), if_neg (by omega)]

/-- Witness for `C9_empty_table_panics` at `dimensions = 2`,
component value `7`. -/
theorem C9_empty_table_panics_witness :
    1 ≤ 2 ∧ 7 < U32 ∧
    ∃ m, Create 2 0 = some m ∧ (∀ t ∈ m.Tables, t.Encode = []) ∧
      m.Encode [7] = none ∧ encodeGuardBound 0 = 4294967295 :=
  ⟨by decide, by decide, C9_empty_table_panics 2 7 (by decide) (by decide)⟩

/-- Claim C10: for every dimension count `1..255`, `MakeMagic` returns
exactly 6 masks and mask 0 has bit 0 set; consequently every codec built
by `Create` has `len(Magic) = 6`, covering all the indices
`0 .. len(Magic)-1` that `Decode` reads. -/
theorem C10_six_masks (d : Nat) (hd : 1 ≤ d) (hd255 : d ≤ 255) :
    ∃ l, MakeMagic d = some l ∧ l.length = 6 ∧ (l.getD 0 0).testBit 0 = true ∧
      ∀ s, ∃ m, Create d s = some m ∧ m.Magic.length = 6 := by
  refine ⟨MakeMagicBody d, ?_, makeMagicBody_length d, makeMagicBody_head_testBit d, ?_⟩
  · unfold MakeMagic
    rw [if_neg (by omega)]
  · intro s
    exact ⟨_, create_built d s hd, makeMagicBody_length d⟩

/-- Witness for `C10_six_masks` at `dimensions = 3`. -/
theorem C10_six_masks_witness :
    1 ≤ 3 ∧ 3 ≤ 255 ∧
    ∃ l, MakeMagic 3 = some l ∧ l.length = 6 ∧ (l.getD 0 0).testBit 0 = true ∧
      ∀ s, ∃ m, Create 3 s = some m ∧ m.Magic.length = 6 :=
  ⟨by decide, by decide, C10_six_masks 3 (by decide) (by decide)⟩

end ZOrder
